import Mathlib

/-!
Shallow embedding of `hilbert_gen.py`, an infinite Hilbert-curve coordinate
generator.  Coordinates are pairs of integers; patterns ("shapes") are natural
numbers 1..4.  Dictionary lookups that can raise `KeyError`/`IndexError` in
Python are modelled with `Option`: `none` is an error branch being reached.
Python generators are modelled as explicit state machines with a `next`
step function.
-/

namespace HilbertGen

/-- An absolute coordinate or a translation vector: a pair of integers. -/
abbrev Pos := Int × Int

/-- `cmb(start, translation)`: componentwise addition of two pairs. -/
def cmb (start translation : Pos) : Pos :=
  (start.1 + translation.1, start.2 + translation.2)

/-- `calc_step(point, step)`: componentwise scaling of a pair by `step`. -/
def calc_step (point : Pos) (step : Int) : Pos :=
  (point.1 * step, point.2 * step)

/-- The dictionary `s` in `four_from_one_gen`: the four child shapes of a
shape.  A key outside 1..4 raises `KeyError`, modelled as `none`. -/
def four_from_one_gen (shape : Nat) : Option (List Nat) :=
  match shape with
  | 1 => some [1, 2, 2, 3]
  | 2 => some [2, 1, 1, 4]
  | 3 => some [3, 4, 4, 1]
  | 4 => some [4, 3, 3, 2]
  | _ => none

/-- The dictionary `moves` in `move`: unscaled translation vectors of each
block type (with the dead `0` key present in the source). -/
def moves_table (shape : Nat) : Option (List Pos) :=
  match shape with
  | 0 => some [(0, 0)]
  | 1 => some [(0, 0), (1, 0), (0, 1), (-1, 0)]
  | 2 => some [(0, 0), (0, 1), (1, 0), (0, -1)]
  | 3 => some [(0, 0), (-1, 0), (0, -1), (1, 0)]
  | 4 => some [(0, 0), (0, -1), (-1, 0), (0, 1)]
  | _ => none

/-- `move(shape, step_size)`: the translation vectors of a block, each scaled
by `calc_step`. -/
def move (shape : Nat) (step_size : Int) : Option (List Pos) :=
  (moves_table shape).map (List.map (fun a => calc_step a step_size))

/-- The dictionary `grid` in `next_start`: unscaled translation between a
completed block of `previous_shape` and the next block of `next_shape`. -/
def grid (previous_shape next_shape : Nat) : Option Pos :=
  match previous_shape, next_shape with
  | 0, 1 => some (0, 0)
  | 0, 2 => some (0, 0)
  | 0, 3 => some (0, 0)
  | 0, 4 => some (0, 0)
  | 1, 1 => some (0, 1)
  | 1, 2 => some (0, 1)
  | 1, 3 => some (-1, 0)
  | 1, 4 => some (-1, 0)
  | 2, 1 => some (1, 0)
  | 2, 2 => some (1, 0)
  | 2, 3 => some (0, -1)
  | 2, 4 => some (0, -1)
  | 3, 1 => some (1, 0)
  | 3, 2 => some (1, 0)
  | 3, 3 => some (0, -1)
  | 3, 4 => some (0, -1)
  | 4, 1 => some (0, 1)
  | 4, 2 => some (0, 1)
  | 4, 3 => some (-1, 0)
  | 4, 4 => some (-1, 0)
  | _, _ => none

/-- `next_start(previous_shape, next_shape, step_size)`: the scaled inter-block
translation. -/
def next_start (previous_shape next_shape : Nat) (step_size : Int) : Option Pos :=
  (grid previous_shape next_shape).map (fun p => calc_step p step_size)

/-- Suspended state of the `shapes_gen` generator between two yields:
the backing list `lists`, the read cursor `position`, and the items of the
current expansion chunk that have not been yielded yet. -/
structure ShapesGen where
  lists : List Nat
  position : Nat
  buffer : List Nat
deriving Repr, DecidableEq

/-- State of `shapes_gen()` when first resumed: empty backing list, cursor 0,
and the bootstrap chunk `four_from_one_gen(1)` about to be yielded. -/
def shapes_gen_init : Option ShapesGen :=
  (four_from_one_gen 1).map (fun chunk => ⟨[], 0, chunk⟩)

/-- One `next()` on the `shapes_gen` generator.  While the current chunk still
has items, the generator appends the next item to `lists` and yields it.  When
the chunk is exhausted the cursor advances (`position += 1`), the shape at
`lists[position]` is expanded with `four_from_one_gen`, and its first item is
appended and yielded.  An out-of-range cursor (`IndexError`) or an invalid
shape key (`KeyError`) is `none`. -/
def shapes_gen_next (g : ShapesGen) : Option (Nat × ShapesGen) :=
  match g.buffer with
  | x :: rest => some (x, ⟨g.lists ++ [x], g.position, rest⟩)
  | [] =>
    (g.lists[g.position + 1]?).bind (fun sh =>
      (four_from_one_gen sh).bind (fun chunk =>
        match chunk with
        | x :: rest => some (x, ⟨g.lists ++ [x], g.position + 1, rest⟩)
        | [] => none))

/-- All shapes yielded by `n` consecutive `next()` calls on a fresh
`shapes_gen()`, together with the generator state afterwards. -/
def shapes_gen_pulls : Nat → Option (List Nat × ShapesGen)
  | 0 => shapes_gen_init.map (fun g => ([], g))
  | n + 1 =>
    (shapes_gen_pulls n).bind (fun pr =>
      (shapes_gen_next pr.2).map (fun xg => (pr.1 ++ [xg.1], xg.2)))

/-- Suspended state of the `hilbert_curve` generator at an outer-loop
boundary: the current coordinate, the current shape, and the state of the
embedded `shapes_gen` instance. -/
structure HilbertCurve where
  position : Pos
  shape : Nat
  shapes : ShapesGen
deriving Repr, DecidableEq

/-- Setup of `hilbert_curve(start_point, step_size)`: `position = start_point`,
a fresh `shapes_gen` and one pull from it for the initial shape.  The source
never inspects `step_size` here. -/
def hilbert_init (start_point : Pos) (step_size : Int) : Option HilbertCurve :=
  shapes_gen_init.bind (fun g =>
    (shapes_gen_next g).map (fun xg => ⟨start_point, xg.1, xg.2⟩))

/-- The inner `for movement in move(shape, step_size)` loop: starting from
`position`, accumulate each movement with `cmb` and yield every intermediate
coordinate.  Returns the yielded coordinates and the final coordinate. -/
def block_positions (position : Pos) : List Pos → List Pos × Pos
  | [] => ([], position)
  | m :: rest =>
    let p := cmb position m
    let pr := block_positions p rest
    (p :: pr.1, pr.2)

/-- One iteration of the outer `while True` loop of `hilbert_curve`: walk the
current block, then pull the next shape and apply the `next_start`
translation. -/
def hilbert_block (st : HilbertCurve) (step_size : Int) :
    Option (List Pos × HilbertCurve) :=
  (move st.shape step_size).bind (fun mvs =>
    let pr := block_positions st.position mvs
    (shapes_gen_next st.shapes).bind (fun xg =>
      (next_start st.shape xg.1 step_size).map (fun tr =>
        (pr.1, ⟨cmb pr.2 tr, xg.1, xg.2⟩))))

/-- All coordinates yielded during the first `k` outer-loop iterations of
`hilbert_curve(start_point, step_size)`, with the state afterwards. -/
def hilbert_run (start_point : Pos) (step_size : Int) : Nat → Option (List Pos × HilbertCurve)
  | 0 => (hilbert_init start_point step_size).map (fun st => ([], st))
  | k + 1 =>
    (hilbert_run start_point step_size k).bind (fun pr =>
      (hilbert_block pr.2 step_size).map (fun qr => (pr.1 ++ qr.1, qr.2)))

/-- The first `n` coordinates yielded by `hilbert_curve(start_point,
step_size)`: run enough whole blocks (each yields 4 coordinates) and truncate. -/
def hilbert_positions (start_point : Pos) (step_size : Int) (n : Nat) : Option (List Pos) :=
  (hilbert_run start_point step_size ((n + 3) / 4)).map (fun pr => pr.1.take n)

/-- The `k`-th (0-based) coordinate yielded by `hilbert_curve`. -/
def hilbert_pos_at (start_point : Pos) (step_size : Int) (k : Nat) : Option Pos :=
  (hilbert_positions start_point step_size (k + 1)).bind (fun l => l[k]?)

/-! ### Invariants of the shape generator -/

/-- A shape identifier that is a valid key of every catalog table. -/
abbrev goodShape (p : Nat) : Prop := 1 ≤ p ∧ p ≤ 4

/-- Expanding a valid shape never hits the error branch: it yields four valid
child shapes. -/
theorem four_from_one_gen_good {sh : Nat} (h : goodShape sh) :
    ∃ c, four_from_one_gen sh = some c ∧ c.length = 4 ∧ ∀ y ∈ c, goodShape y := by
  obtain ⟨h1, h2⟩ := h
  interval_cases sh <;> exact ⟨_, rfl, rfl, by decide⟩

/-- Invariant of a `shapes_gen` state: everything recorded or pending is a
valid shape, and the appends performed so far plus the pending ones add up to
4 per cursor value. -/
abbrev SGInv (g : ShapesGen) : Prop :=
  (∀ y ∈ g.lists, goodShape y) ∧ (∀ y ∈ g.buffer, goodShape y) ∧
    g.lists.length + g.buffer.length = 4 * (g.position + 1)

/-- From any state satisfying `SGInv`, one `next()` succeeds, yields a valid
shape, appends exactly that shape to the backing list, and preserves the
invariant.  The buffer either shrinks by one or (on a cursor advance) is
refilled to three pending items. -/
theorem shapes_gen_next_inv {g : ShapesGen} (h : SGInv g) :
    ∃ x g', shapes_gen_next g = some (x, g') ∧ goodShape x ∧ SGInv g' ∧
      g'.lists = g.lists ++ [x] ∧
      (g.buffer = x :: g'.buffer ∧ g'.position = g.position ∨
        g.buffer = [] ∧ g'.buffer.length = 3 ∧ g'.position = g.position + 1) := by
  obtain ⟨hl, hb, hlen⟩ := h
  cases hbuf : g.buffer with
  | cons x rest =>
      refine ⟨x, ⟨g.lists ++ [x], g.position, rest⟩, ?_, ?_, ?_, rfl, Or.inl ⟨?_, rfl⟩⟩
      · simp [shapes_gen_next, hbuf]
      · exact hb x (by rw [hbuf]; exact List.mem_cons_self x rest)
      · refine ⟨?_, ?_, ?_⟩
        · intro y hy
          rcases List.mem_append.mp hy with h1 | h2
          · exact hl y h1
          · have hyx := List.mem_singleton.mp h2
            subst hyx
            exact hb y (by rw [hbuf]; exact List.mem_cons_self y rest)
        · intro y hy
          exact hb y (by rw [hbuf]; exact List.mem_cons_of_mem x hy)
        · show (g.lists ++ [x]).length + rest.length = 4 * (g.position + 1)
          rw [hbuf] at hlen
          simp only [List.length_cons] at hlen
          simp only [List.length_append, List.length_cons, List.length_nil]
          omega
      · rfl
  | nil =>
      rw [hbuf] at hlen
      simp only [List.length_nil, Nat.add_zero] at hlen
      have hidx : g.position + 1 < g.lists.length := by omega
      have hget : g.lists[g.position + 1]? = some g.lists[g.position + 1] :=
        List.getElem?_eq_getElem hidx
      have hshgood : goodShape g.lists[g.position + 1] := hl _ (List.getElem_mem hidx)
      obtain ⟨c, hc, hclen, hcgood⟩ := four_from_one_gen_good hshgood
      cases c with
      | nil => simp at hclen
      | cons x rest =>
          refine ⟨x, ⟨g.lists ++ [x], g.position + 1, rest⟩, ?_, ?_, ?_, rfl,
            Or.inr ⟨rfl, ?_, rfl⟩⟩
          · simp [shapes_gen_next, hbuf, hget, hc]
          · exact hcgood x (List.mem_cons_self x rest)
          · refine ⟨?_, ?_, ?_⟩
            · intro y hy
              rcases List.mem_append.mp hy with h1 | h2
              · exact hl y h1
              · have hyx := List.mem_singleton.mp h2
                subst hyx
                exact hcgood y (List.mem_cons_self y rest)
            · intro y hy
              exact hcgood y (List.mem_cons_of_mem x hy)
            · show (g.lists ++ [x]).length + rest.length = 4 * (g.position + 1 + 1)
              simp only [List.length_append, List.length_cons, List.length_nil]
              simp only [List.length_cons] at hclen
              omega
          · show rest.length = 3
            simp only [List.length_cons] at hclen
            omega

/-- Full invariant of the shape generator after `n` `next()` calls: the
backing list holds exactly the `n` yielded shapes, the basic state invariant
holds, the yields begin with the bootstrap expansion of shape 1, and the
pending buffer is concrete during the bootstrap and strictly below 4
afterwards. -/
abbrev SGFull (n : Nat) (ys : List Nat) (g : ShapesGen) : Prop :=
  g.lists = ys ∧ ys.length = n ∧ SGInv g ∧
    ys.take 4 = List.take n [1, 2, 2, 3] ∧
    (n < 4 → g.buffer = List.drop n [1, 2, 2, 3]) ∧
    (1 ≤ n → g.buffer.length < 4)

/-- Any number of `next()` calls on a fresh `shapes_gen()` succeeds, and the
resulting yields and state satisfy the full invariant. -/
theorem shapes_gen_pulls_spec (n : Nat) :
    ∃ ys g, shapes_gen_pulls n = some (ys, g) ∧ SGFull n ys g := by
  induction n with
  | zero => exact ⟨[], ⟨[], 0, [1, 2, 2, 3]⟩, rfl, by decide⟩
  | succ n ih =>
      by_cases hn : n < 4
      · interval_cases n
        · exact ⟨[1], ⟨[1], 0, [2, 2, 3]⟩, rfl, by decide⟩
        · exact ⟨[1, 2], ⟨[1, 2], 0, [2, 3]⟩, rfl, by decide⟩
        · exact ⟨[1, 2, 2], ⟨[1, 2, 2], 0, [3]⟩, rfl, by decide⟩
        · exact ⟨[1, 2, 2, 3], ⟨[1, 2, 2, 3], 0, []⟩, rfl, by decide⟩
      · obtain ⟨ys, g, hp, hlists, hlen, hinv, htake, hbufdrop, hbuflt⟩ := ih
        obtain ⟨x, g', hnext, hxgood, hinv', hlists', hbufcase⟩ := shapes_gen_next_inv hinv
        have htake' : (ys ++ [x]).take 4 = List.take (n + 1) [1, 2, 2, 3] :=
          calc (ys ++ [x]).take 4 = ys.take 4 :=
                List.take_append_of_le_length (by omega)
            _ = List.take n [1, 2, 2, 3] := htake
            _ = [1, 2, 2, 3] := List.take_of_length_le (by simp; omega)
            _ = List.take (n + 1) [1, 2, 2, 3] :=
                (List.take_of_length_le (by simp; omega)).symm
        refine ⟨ys ++ [x], g', ?_, ?_, ?_, hinv', htake', ?_, ?_⟩
        · simp [shapes_gen_pulls, hp, hnext]
        · rw [hlists', hlists]
        · simp [hlen]
        · intro h
          omega
        · intro _
          rcases hbufcase with ⟨hcons, -⟩ | ⟨-, hblen, -⟩
          · have := hbuflt (by omega)
            rw [hcons] at this
            simp only [List.length_cons] at this
            omega
          · omega

/-! ### Invariants of the curve driver -/

/-- A single axis-aligned displacement of magnitude `s`. -/
abbrev unit_vec (s : Int) (v : Pos) : Prop :=
  v = (s, 0) ∨ v = (-s, 0) ∨ v = (0, s) ∨ v = (0, -s)

/-- Two coordinates differ by one axis-aligned step of magnitude `s`: one
component changes by `±s`, the other is unchanged. -/
abbrev axis_step (s : Int) (p q : Pos) : Prop :=
  ((q.1 = p.1 + s ∨ q.1 = p.1 - s) ∧ q.2 = p.2) ∨
    ((q.2 = p.2 + s ∨ q.2 = p.2 - s) ∧ q.1 = p.1)

theorem cmb_zero (p : Pos) : cmb p (0, 0) = p := by
  simp [cmb]

theorem cmb_unit_axis {s : Int} {v : Pos} (h : unit_vec s v) (p : Pos) :
    axis_step s p (cmb p v) := by
  rcases h with rfl | rfl | rfl | rfl <;> simp [cmb, axis_step, sub_eq_add_neg]

/-- On a valid shape, `move` never hits the error branch: it yields the zero
vector followed by three axis-aligned steps of magnitude `step_size`. -/
theorem move_spec {sh : Nat} (h : goodShape sh) (s : Int) :
    ∃ v1 v2 v3, move sh s = some [(0, 0), v1, v2, v3] ∧
      unit_vec s v1 ∧ unit_vec s v2 ∧ unit_vec s v3 := by
  obtain ⟨h1, h2⟩ := h
  interval_cases sh
  · exact ⟨(s, 0), (0, s), (-s, 0), by simp [move, moves_table, calc_step],
      Or.inl rfl, Or.inr (Or.inr (Or.inl rfl)), Or.inr (Or.inl rfl)⟩
  · exact ⟨(0, s), (s, 0), (0, -s), by simp [move, moves_table, calc_step],
      Or.inr (Or.inr (Or.inl rfl)), Or.inl rfl, Or.inr (Or.inr (Or.inr rfl))⟩
  · exact ⟨(-s, 0), (0, -s), (s, 0), by simp [move, moves_table, calc_step],
      Or.inr (Or.inl rfl), Or.inr (Or.inr (Or.inr rfl)), Or.inl rfl⟩
  · exact ⟨(0, -s), (-s, 0), (0, s), by simp [move, moves_table, calc_step],
      Or.inr (Or.inr (Or.inr rfl)), Or.inr (Or.inl rfl), Or.inr (Or.inr (Or.inl rfl))⟩

/-- On a valid pair of shapes, `next_start` never hits the error branch: it
yields one axis-aligned step of magnitude `step_size`. -/
theorem next_start_unit {p q : Nat} (hp : goodShape p) (hq : goodShape q) (s : Int) :
    ∃ t, next_start p q s = some t ∧ unit_vec s t := by
  obtain ⟨hp1, hp2⟩ := hp
  obtain ⟨hq1, hq2⟩ := hq
  interval_cases p <;> interval_cases q <;>
    exact ⟨_, rfl, by simp [calc_step, unit_vec]⟩

/-- Walking a block whose movement list is the zero vector followed by three
vectors yields the start coordinate and the three partial sums. -/
theorem block_positions_four (p v1 v2 v3 : Pos) :
    block_positions p [(0, 0), v1, v2, v3] =
      ([p, cmb p v1, cmb (cmb p v1) v2, cmb (cmb (cmb p v1) v2) v3],
        cmb (cmb (cmb p v1) v2) v3) := by
  simp [block_positions, cmb]

/-- Evaluation of one driver block once the three table lookups are known. -/
theorem hilbert_block_eq {st : HilbertCurve} {s : Int} {v1 v2 v3 : Pos} {x : Nat}
    {g' : ShapesGen} {tr : Pos}
    (hmv : move st.shape s = some [(0, 0), v1, v2, v3])
    (hnext : shapes_gen_next st.shapes = some (x, g'))
    (htr : next_start st.shape x s = some tr) :
    hilbert_block st s = some ([st.position, cmb st.position v1,
      cmb (cmb st.position v1) v2, cmb (cmb (cmb st.position v1) v2) v3],
      ⟨cmb (cmb (cmb (cmb st.position v1) v2) v3) tr, x, g'⟩) := by
  unfold hilbert_block
  simp only [hmv, hnext, htr, Option.some_bind, Option.map_some', block_positions_four]

/-- Invariant of a `hilbert_curve` state: the current shape is valid and the
embedded shape generator satisfies its invariant. -/
abbrev HCInv (st : HilbertCurve) : Prop := goodShape st.shape ∧ SGInv st.shapes

/-- Master invariant of the curve driver: any number of whole blocks runs
without hitting an error branch, yields 4 coordinates per block, preserves the
state invariant, and the yielded coordinates followed by the driver's current
coordinate form a walk that starts at `start` and moves by one axis-aligned
step of magnitude `s` at a time. -/
theorem hilbert_run_spec (start : Pos) (s : Int) (k : Nat) :
    ∃ ps st, hilbert_run start s k = some (ps, st) ∧ ps.length = 4 * k ∧ HCInv st ∧
      ∃ tl, ps ++ [st.position] = start :: tl ∧
        List.Chain' (axis_step s) (ps ++ [st.position]) := by
  induction k with
  | zero =>
      refine ⟨[], ⟨start, 1, ⟨[1], 0, [2, 2, 3]⟩⟩, rfl, rfl,
        (by decide : goodShape 1 ∧ SGInv ⟨[1], 0, [2, 2, 3]⟩),
        [], rfl, List.chain'_singleton start⟩
  | succ k ih =>
      obtain ⟨ps, st, hrun, hlen, ⟨hsh, hsg⟩, tl, hcons, hchain⟩ := ih
      obtain ⟨v1, v2, v3, hmv, hu1, hu2, hu3⟩ := move_spec hsh s
      obtain ⟨x, g', hnext, hxgood, hinv', -, -⟩ := shapes_gen_next_inv hsg
      obtain ⟨tr, htr, htru⟩ := next_start_unit hsh hxgood s
      refine ⟨ps ++ [st.position, cmb st.position v1, cmb (cmb st.position v1) v2,
          cmb (cmb (cmb st.position v1) v2) v3],
        ⟨cmb (cmb (cmb (cmb st.position v1) v2) v3) tr, x, g'⟩, ?_, ?_,
        ⟨hxgood, hinv'⟩, ?_⟩
      · simp [hilbert_run, hrun, hilbert_block_eq hmv hnext htr]
      · simp only [List.length_append, List.length_cons, List.length_nil]
        omega
      · have hform : (ps ++ [st.position, cmb st.position v1, cmb (cmb st.position v1) v2,
              cmb (cmb (cmb st.position v1) v2) v3]) ++
              [cmb (cmb (cmb (cmb st.position v1) v2) v3) tr] =
            (ps ++ [st.position]) ++ [cmb st.position v1, cmb (cmb st.position v1) v2,
              cmb (cmb (cmb st.position v1) v2) v3,
              cmb (cmb (cmb (cmb st.position v1) v2) v3) tr] := by
          simp
        refine ⟨tl ++ [cmb st.position v1, cmb (cmb st.position v1) v2,
            cmb (cmb (cmb st.position v1) v2) v3,
            cmb (cmb (cmb (cmb st.position v1) v2) v3) tr], ?_, ?_⟩
        · show (ps ++ [st.position, cmb st.position v1, cmb (cmb st.position v1) v2,
              cmb (cmb (cmb st.position v1) v2) v3]) ++
              [cmb (cmb (cmb (cmb st.position v1) v2) v3) tr] = _
          rw [hform, hcons]
          rfl
        · show List.Chain' (axis_step s)
            ((ps ++ [st.position, cmb st.position v1, cmb (cmb st.position v1) v2,
              cmb (cmb (cmb st.position v1) v2) v3]) ++
              [cmb (cmb (cmb (cmb st.position v1) v2) v3) tr])
          rw [hform]
          refine List.chain'_append.mpr ⟨hchain, ?_, ?_⟩
          · rw [List.chain'_cons, List.chain'_cons, List.chain'_cons]
            exact ⟨cmb_unit_axis hu2 _, cmb_unit_axis hu3 _, cmb_unit_axis htru _,
              List.chain'_singleton _⟩
          · intro a ha b hb
            rw [List.getLast?_concat] at ha
            simp only [List.head?_cons, Option.mem_some_iff] at ha hb
            rw [← ha, ← hb]
            exact cmb_unit_axis hu1 st.position

/-! ### Scaling -/

theorem calc_step_one (p : Pos) : calc_step p 1 = p := by
  simp [calc_step]

theorem calc_step_cmb (p q : Pos) (s : Int) :
    cmb (calc_step p s) (calc_step q s) = calc_step (cmb p q) s := by
  simp [cmb, calc_step, add_mul]

theorem move_scale (sh : Nat) (s : Int) :
    move sh s = (move sh 1).map (List.map (fun a => calc_step a s)) := by
  unfold move
  cases moves_table sh with
  | none => rfl
  | some l =>
      simp only [Option.map_some']
      have hid : List.map (fun a => calc_step a 1) l = l := by
        simp [calc_step_one]
      rw [hid]

theorem next_start_scale (p q : Nat) (s : Int) :
    next_start p q s = (next_start p q 1).map (fun t => calc_step t s) := by
  unfold next_start
  cases grid p q with
  | none => rfl
  | some t => simp [calc_step_one]

theorem block_positions_scale (mvs : List Pos) (p : Pos) (s : Int) :
    block_positions (calc_step p s) (mvs.map (fun a => calc_step a s)) =
      ((block_positions p mvs).1.map (fun a => calc_step a s),
        calc_step (block_positions p mvs).2 s) := by
  induction mvs generalizing p with
  | nil => rfl
  | cons m rest ih =>
      simp only [List.map_cons, block_positions, calc_step_cmb, ih]

/-- The driver state with its coordinate scaled by `s`. -/
def scale_state (s : Int) (st : HilbertCurve) : HilbertCurve :=
  ⟨calc_step st.position s, st.shape, st.shapes⟩

/-- `hilbert_block` on fields made explicit. -/
theorem hilbert_block_mk (p : Pos) (sh : Nat) (g : ShapesGen) (s : Int) :
    hilbert_block ⟨p, sh, g⟩ s =
      (move sh s).bind (fun mvs =>
        let pr := block_positions p mvs
        (shapes_gen_next g).bind (fun xg =>
          (next_start sh xg.1 s).map (fun tr =>
            (pr.1, ⟨cmb pr.2 tr, xg.1, xg.2⟩)))) := rfl

theorem hilbert_block_scale (p : Pos) (sh : Nat) (g : ShapesGen) (s : Int) :
    hilbert_block ⟨calc_step p s, sh, g⟩ s =
      (hilbert_block ⟨p, sh, g⟩ 1).map (fun qr =>
        (qr.1.map (fun a => calc_step a s), scale_state s qr.2)) := by
  rw [hilbert_block_mk, hilbert_block_mk, move_scale sh s]
  cases move sh 1 with
  | none => rfl
  | some mvs =>
      simp only [Option.map_some', Option.some_bind]
      rw [block_positions_scale]
      cases shapes_gen_next g with
      | none => rfl
      | some xg =>
          simp only [Option.some_bind]
          rw [next_start_scale]
          cases next_start sh xg.1 1 with
          | none => rfl
          | some tr =>
              simp only [Option.map_some', Option.map_map]
              rw [calc_step_cmb]
              rfl

/-- Every run of the driver started from a scaled origin with step `s` is the
componentwise scaling of the run with step 1. -/
theorem hilbert_run_scale (start : Pos) (s : Int) (k : Nat) :
    hilbert_run (calc_step start s) s k =
      (hilbert_run start 1 k).map (fun pr =>
        (pr.1.map (fun a => calc_step a s), scale_state s pr.2)) := by
  induction k with
  | zero => rfl
  | succ k ih =>
      rw [hilbert_run, hilbert_run, ih]
      cases hilbert_run start 1 k with
      | none => rfl
      | some pr =>
          simp only [Option.map_some', Option.some_bind]
          have hblk : hilbert_block (scale_state s pr.2) s =
              (hilbert_block pr.2 1).map (fun qr =>
                (qr.1.map (fun a => calc_step a s), scale_state s qr.2)) := by
            have h1 : pr.2 = ⟨pr.2.position, pr.2.shape, pr.2.shapes⟩ := rfl
            rw [h1]
            exact hilbert_block_scale pr.2.position pr.2.shape pr.2.shapes s
          rw [hblk]
          cases hilbert_block pr.2 1 with
          | none => rfl
          | some qr =>
              simp only [Option.map_some', List.map_append]

/-! ### Chain helpers -/

theorem chain'_take {α : Type} {R : α → α → Prop} :
    ∀ (l : List α) (n : Nat), List.Chain' R l → List.Chain' R (l.take n) := by
  intro l
  induction l with
  | nil => intro n _; simp
  | cons a t ih =>
      intro n h
      cases n with
      | zero => simp
      | succ m =>
          rw [List.take_succ_cons]
          rw [List.chain'_cons'] at h ⊢
          obtain ⟨hhead, htail⟩ := h
          refine ⟨?_, ih m htail⟩
          intro y hy
          apply hhead
          cases t with
          | nil => simp at hy
          | cons b t' =>
              cases m with
              | zero => simp at hy
              | succ m' => simpa using hy

/-- Totality and walk structure of any yielded coordinate sequence: the first
`n` coordinates always exist, number exactly `n`, begin at the start point,
and successive coordinates differ by one axis-aligned step of magnitude `s`. -/
theorem hilbert_positions_spec (start : Pos) (s : Int) (n : Nat) :
    ∃ l, hilbert_positions start s n = some l ∧ l.length = n ∧
      (1 ≤ n → l.head? = some start) ∧ List.Chain' (axis_step s) l := by
  obtain ⟨ps, st, hrun, hlen, -, tl, hcons, hchain⟩ := hilbert_run_spec start s ((n + 3) / 4)
  refine ⟨ps.take n, by simp [hilbert_positions, hrun], ?_, ?_, ?_⟩
  · rw [List.length_take, hlen]
    exact Nat.min_eq_left (by omega)
  · intro hn
    cases ps with
    | nil =>
        simp only [List.length_nil] at hlen
        omega
    | cons p rest =>
        have hp : p = start := by
          have := congrArg List.head? hcons
          simpa using this
        subst hp
        cases n with
        | zero => omega
        | succ m => simp [List.take_succ_cons]
  · exact chain'_take ps n (List.chain'_append.mp hchain).1

/-! ### The claims -/

/-- C1, counterexample: with start `(0,0)` and step 1, the first 8 positions
are NOT `(0,0),(1,0),(1,1),(0,1),(0,2),(1,2),(1,3),(0,3)` as the spec's
end-to-end scenario states: `moves[2] = [(0,0),(0,1),(1,0),(0,-1)]`, so the
second block runs `(0,2),(0,3),(1,3),(1,2)`. -/
theorem first_eight_positions_ne_spec :
    hilbert_positions (0, 0) 1 8 ≠
      some [(0, 0), (1, 0), (1, 1), (0, 1), (0, 2), (1, 2), (1, 3), (0, 3)] := by
  decide

/-- C1, amended: with start `(0,0)` and step 1 the first 8 positions are
`(0,0),(1,0),(1,1),(0,1)` (first block of pattern 1), then after the
transition `(0,1)` the first block of pattern 2 runs `(0,2),(0,3),(1,3),(1,2)`
per `moves(2)`. -/
theorem first_eight_positions :
    hilbert_positions (0, 0) 1 8 =
      some [(0, 0), (1, 0), (1, 1), (0, 1), (0, 2), (0, 3), (1, 3), (1, 2)] := by
  decide

/-- C2: for any start point and positive step size, the first 4 emitted
positions are the start point plus the cumulative sums of the four vectors of
`moves(1)` scaled by the step size. -/
theorem first_four_positions (start : Pos) (s : Int) (h : 0 < s) :
    ∃ mvs, move 1 s = some mvs ∧
      hilbert_positions start s 4 = some ((List.scanl cmb start mvs).drop 1) := by
  have hmv : move 1 s = some [(0, 0), (s, 0), (0, s), (-s, 0)] := by
    simp [move, moves_table, calc_step]
  have hblock := @hilbert_block_eq ⟨start, 1, ⟨[1], 0, [2, 2, 3]⟩⟩ s (s, 0) (0, s)
    (-s, 0) 2 ⟨[1, 2], 0, [2, 3]⟩ (calc_step (0, 1) s) hmv rfl rfl
  have h1 : hilbert_run start s 1 =
      some ([start, cmb start (s, 0), cmb (cmb start (s, 0)) (0, s),
        cmb (cmb (cmb start (s, 0)) (0, s)) (-s, 0)],
        ⟨cmb (cmb (cmb (cmb start (s, 0)) (0, s)) (-s, 0)) (calc_step (0, 1) s), 2,
          ⟨[1, 2], 0, [2, 3]⟩⟩) := by
    have h0 : hilbert_run start s 0 =
        some ([], ⟨start, 1, ⟨[1], 0, [2, 2, 3]⟩⟩) := rfl
    rw [hilbert_run, h0]
    simp only [Option.some_bind]
    rw [hblock]
    simp only [Option.map_some', List.nil_append]
  refine ⟨[(0, 0), (s, 0), (0, s), (-s, 0)], hmv, ?_⟩
  show (hilbert_run start s 1).map (fun pr => pr.1.take 4) = _
  rw [h1]
  simp [List.scanl, cmb]

/-- C2 witness at start `(0,0)`, step 1: the four positions evaluate to
`(0,0),(1,0),(1,1),(0,1)`. -/
theorem first_four_positions_witness :
    (∃ mvs, move 1 1 = some mvs ∧
      hilbert_positions (0, 0) 1 4 = some ((List.scanl cmb (0, 0) mvs).drop 1)) ∧
      hilbert_positions (0, 0) 1 4 = some [(0, 0), (1, 0), (1, 1), (0, 1)] :=
  ⟨first_four_positions (0, 0) 1 (by decide), by decide⟩

/-- C3: the first 16 shapes yielded by `shapes_gen` are exactly
`1,2,2,3, 2,1,1,4, 2,1,1,4, 3,4,4,1`. -/
theorem first_sixteen_shapes :
    (shapes_gen_pulls 16).map Prod.fst =
      some [1, 2, 2, 3, 2, 1, 1, 4, 2, 1, 1, 4, 3, 4, 4, 1] := by
  decide

/-- C4, counterexample: constructing the driver with step size `0 ≤ 0` raises
no fault — the source performs no validation — and the driver then produces a
position, contradicting the claim that the fault is reported at construction
and no position is produced. -/
theorem construction_accepts_nonpositive_step :
    (hilbert_init (0, 0) 0).isSome = true ∧
      hilbert_positions (0, 0) 0 1 = some [(0, 0)] := by
  decide

/-- C4, amended: constructing the driver with any step size `≤ 0` (indeed any
step size at all) succeeds without any fault, and the driver produces
positions normally: the code never validates `step_size`. -/
theorem nonpositive_step_no_fault (start : Pos) (s : Int) (h : s ≤ 0) (n : Nat) :
    (hilbert_init start s).isSome = true ∧
      ∃ l, hilbert_positions start s n = some l ∧ l.length = n := by
  refine ⟨rfl, ?_⟩
  obtain ⟨l, h1, h2, -, -⟩ := hilbert_positions_spec start s n
  exact ⟨l, h1, h2⟩

/-- C4 witness at step size `-1`. -/
theorem nonpositive_step_no_fault_witness :
    (hilbert_init (0, 0) (-1)).isSome = true ∧
      ∃ l, hilbert_positions (0, 0) (-1) 3 = some l ∧ l.length = 3 :=
  nonpositive_step_no_fault (0, 0) (-1) (by decide) 3

/-- C5: in the `shapes_gen` state, each cursor advance grows the backing list
by exactly 4 entries, the list length equals `4 * (cursor + 1)` at every
completed expansion (observed at each multiple of 4 pulls), and at every
point the list length is at least (indeed equal to) the number of shapes
yielded so far. -/
theorem shapes_list_growth (k n : Nat) :
    ∃ ys g ys' g' zs h,
      shapes_gen_pulls (4 * (k + 1)) = some (ys, g) ∧
      shapes_gen_pulls (4 * (k + 2)) = some (ys', g') ∧
      g.lists.length = 4 * (g.position + 1) ∧
      g'.lists.length = 4 * (g'.position + 1) ∧
      g'.position = g.position + 1 ∧
      g'.lists.length = g.lists.length + 4 ∧
      shapes_gen_pulls n = some (zs, h) ∧ zs.length ≤ h.lists.length := by
  obtain ⟨ys, g, hp, hl, hlen, ⟨-, -, hinv⟩, -, -, hblt⟩ :=
    shapes_gen_pulls_spec (4 * (k + 1))
  obtain ⟨ys', g', hp', hl', hlen', ⟨-, -, hinv'⟩, -, -, hblt'⟩ :=
    shapes_gen_pulls_spec (4 * (k + 2))
  obtain ⟨zs, hz, hpz, hlz, -, -, -, -⟩ := shapes_gen_pulls_spec n
  have hgl : g.lists.length = 4 * (k + 1) := by rw [hl, hlen]
  have hgl' : g'.lists.length = 4 * (k + 2) := by rw [hl', hlen']
  have hb : g.buffer.length = 0 := by
    have := hblt (by omega)
    omega
  have hb' : g'.buffer.length = 0 := by
    have := hblt' (by omega)
    omega
  refine ⟨ys, g, ys', g', zs, hz, hp, hp', by omega, by omega, by omega, by omega,
    hpz, ?_⟩
  rw [hlz]

/-- C6: every shape ever yielded by `shapes_gen` is in `{1,2,3,4}`, the
sequence begins with the expansion of shape 1, and no catalog lookup made
during curve generation ever hits an error branch (`hilbert_run` never
returns `none`). -/
theorem shapes_all_valid_and_lookups_total (n k : Nat) (start : Pos) (s : Int) :
    ∃ ys g, shapes_gen_pulls n = some (ys, g) ∧
      (∀ y ∈ ys, 1 ≤ y ∧ y ≤ 4) ∧
      ys.take 4 = List.take n [1, 2, 2, 3] ∧
      (hilbert_run start s k).isSome = true := by
  obtain ⟨ys, g, hp, hl, -, ⟨hgood, -, -⟩, htake, -, -⟩ := shapes_gen_pulls_spec n
  obtain ⟨ps, st, hrun, -⟩ := hilbert_run_spec start s k
  refine ⟨ys, g, hp, ?_, htake, by rw [hrun]; rfl⟩
  rw [← hl]
  exact hgood

/-- C7: pulling any finite number of positions from the driver succeeds: for
every `n` the first `n` positions exist, so the sequence is never
exhausted. -/
theorem positions_always_available (start : Pos) (s : Int) (n : Nat) :
    ∃ l, hilbert_positions start s n = some l ∧ l.length = n := by
  obtain ⟨l, h1, h2, -, -⟩ := hilbert_positions_spec start s n
  exact ⟨l, h1, h2⟩

/-- C8: for every positive step size `s` and index `k`, the `k`-th position
of the curve from the origin with step `s` is the `k`-th position with step 1
with both components multiplied by `s`. -/
theorem positions_scale (s : Int) (k : Nat) (h : 0 < s) :
    ∃ p, hilbert_pos_at (0, 0) 1 k = some p ∧
      hilbert_pos_at (0, 0) s k = some (calc_step p s) := by
  obtain ⟨ps, st, hrun, hlen, -⟩ := hilbert_run_spec (0, 0) 1 ((k + 1 + 3) / 4)
  have hk : k < ps.length := by
    rw [hlen]
    omega
  refine ⟨ps[k], ?_, ?_⟩
  · unfold hilbert_pos_at hilbert_positions
    rw [hrun]
    simp [List.getElem?_take, Nat.lt_succ_self, List.getElem?_eq_getElem hk]
  · have h0 : calc_step (0, 0) s = (0, 0) := by simp [calc_step]
    have hscale := hilbert_run_scale (0, 0) s ((k + 1 + 3) / 4)
    rw [h0] at hscale
    unfold hilbert_pos_at hilbert_positions
    rw [hscale, hrun]
    simp [scale_state, List.getElem?_take, Nat.lt_succ_self, List.getElem?_map,
      List.getElem?_eq_getElem hk]

/-- C8 witness at step 2, index 5. -/
theorem positions_scale_witness :
    ∃ p, hilbert_pos_at (0, 0) 1 5 = some p ∧
      hilbert_pos_at (0, 0) 2 5 = some (calc_step p 2) :=
  positions_scale 2 5 (by decide)

/-- C9: two independently constructed drivers with identical start point and
step size produce identical position sequences for every prefix length, and
those prefixes always exist. -/
theorem positions_deterministic (start1 start2 : Pos) (s1 s2 : Int) (n : Nat)
    (hst : start1 = start2) (hs : s1 = s2) :
    ∃ l, hilbert_positions start1 s1 n = some l ∧
      hilbert_positions start2 s2 n = some l ∧ l.length = n := by
  subst hst
  subst hs
  obtain ⟨l, h1, h2, -, -⟩ := hilbert_positions_spec start1 s1 n
  exact ⟨l, h1, h1, h2⟩

/-- C9 witness: two drivers built with `(0,0)` and step 1 agree on the first
8 positions. -/
theorem positions_deterministic_witness :
    ∃ l, hilbert_positions (0, 0) 1 8 = some l ∧
      hilbert_positions (0, 0) 1 8 = some l ∧ l.length = 8 :=
  positions_deterministic (0, 0) (0, 0) 1 1 8 rfl rfl

/-- C10: for every start point and positive step size, the first emitted
position is the start point, and each later position differs from its
predecessor by exactly one axis-aligned step of magnitude `step_size`,
including across block boundaries. -/
theorem positions_axis_steps (start : Pos) (s : Int) (n : Nat) (h : 0 < s) :
    ∃ l, hilbert_positions start s n = some l ∧
      (1 ≤ n → l.head? = some start) ∧ List.Chain' (axis_step s) l := by
  obtain ⟨l, h1, -, h3, h4⟩ := hilbert_positions_spec start s n
  exact ⟨l, h1, h3, h4⟩

/-- C10 witness with start `(0,0)`, step 1 and 8 positions. -/
theorem positions_axis_steps_witness :
    ∃ l, hilbert_positions (0, 0) 1 8 = some l ∧
      (1 ≤ 8 → l.head? = some (0, 0)) ∧ List.Chain' (axis_step 1) l :=
  positions_axis_steps (0, 0) 1 8 (by decide)

end HilbertGen
